import Mathlib

/-!
# Shallow embedding of the drawing-tool capture pipeline

Embedded source files:
* `datastore.js` — class `DataStore` (trial / stroke / action / gaze record);
* `drawing.js` — class `DrawingEngine` (pointer handlers, rendering history,
  undo / clear / reset / enable / disable);
* `app.js` — the trial-lifecycle glue (`onStartTrial` / `onEndTrial`) and the
  toolbar wiring that drive the two classes;
* `eyetracking.js` — the gaze ingestion path `EyeTracker._onGaze`.

Modelling conventions:
* JS numbers holding coordinates, pressures and timestamps are modelled as
  `ℚ`.  JS `Math.round` rounds halves toward +∞, which is exactly Mathlib's
  `round` (`⌊x + 1/2⌋`), so `Math.round(x*100)/100` becomes
  `(round (x * 100) : ℚ) / 100`.
* Every operation that reads `performance.now()` takes the clock reading as
  an explicit argument `t`; the monotone-clock contract of the spec becomes
  a hypothesis on operation traces.  The two `now()` calls inside
  `DataStore.endTrial` (trial stamp, then stroke stamp via `endStroke`) are
  represented by the same reading, which no claim distinguishes.
* The JS fields `_currentTrial` / `_currentStroke` are object references
  into `sessionData.trials`; they are modelled as indices (trial index,
  resp. trial index × stroke index into that trial's stroke list).  In the
  JS code a non-null reference is always a live list element, so the
  out-of-range branches of the Lean functions are unreachable; they are
  defined as no-ops.
* Canvas painting, DOM updates and timers are output-only effects with no
  bearing on any recorded state and are not modelled; likewise the scalar
  session metadata (participantId, canvas size, userAgent, ...), which no
  claim mentions.
-/

/-- `updAt l i f` applies `f` to the `i`-th element of `l` (no-op when out
of range): the pure counterpart of mutating the object `l[i]` in place. -/
def updAt {α : Type} (l : List α) (i : ℕ) (f : α → α) : List α :=
  match l, i with
  | [], _ => []
  | a :: l, 0 => f a :: l
  | a :: l, i+1 => a :: updAt l i f

theorem length_updAt {α : Type} (l : List α) (i : ℕ) (f : α → α) :
    (updAt l i f).length = l.length := by
  induction l generalizing i with
  | nil => rfl
  | cons a l ih => cases i <;> simp [updAt, ih]

theorem getElem?_updAt {α : Type} (l : List α) (i : ℕ) (f : α → α) (j : ℕ) :
    (updAt l i f)[j]? = if j = i then (l[j]?).map f else l[j]? := by
  induction l generalizing i j with
  | nil => simp [updAt]
  | cons a l ih =>
    cases i with
    | zero => cases j <;> simp [updAt]
    | succ i =>
      cases j with
      | zero => simp [updAt]
      | succ j => simpa [updAt] using ih i j

theorem mem_updAt {α : Type} {x : α} {l : List α} {i : ℕ} {f : α → α}
    (h : x ∈ updAt l i f) : x ∈ l ∨ ∃ y, l[i]? = some y ∧ x = f y := by
  induction l generalizing i with
  | nil => simp [updAt] at h
  | cons a l ih =>
    cases i with
    | zero =>
      rcases List.mem_cons.mp h with rfl | h
      · exact Or.inr ⟨a, by simp⟩
      · exact Or.inl (List.mem_cons_of_mem _ h)
    | succ i =>
      rcases List.mem_cons.mp h with rfl | h
      · exact Or.inl (List.mem_cons_self _ _)
      · rcases ih h with h | ⟨y, hy, rfl⟩
        · exact Or.inl (List.mem_cons_of_mem _ h)
        · exact Or.inr ⟨y, by simpa using hy⟩

theorem updAt_append_length {α : Type} (xs : List α) (e : α) (f : α → α) :
    updAt (xs ++ [e]) xs.length f = xs ++ [f e] := by
  induction xs with
  | nil => rfl
  | cons a xs ih => simp [updAt, ih]

/-- `IsExt xs ys` : `ys` is `xs` with zero or more records appended at the
end — the only way any committed list in the store is allowed to evolve. -/
def IsExt {α : Type} (xs ys : List α) : Prop := ∃ zs, ys = xs ++ zs

theorem isExt_refl {α : Type} (xs : List α) : IsExt xs xs := ⟨[], by simp⟩

theorem isExt_trans {α : Type} {xs ys zs : List α}
    (h1 : IsExt xs ys) (h2 : IsExt ys zs) : IsExt xs zs := by
  obtain ⟨as, rfl⟩ := h1
  obtain ⟨bs, rfl⟩ := h2
  exact ⟨as ++ bs, by simp⟩

theorem isExt_append {α : Type} (xs zs : List α) : IsExt xs (xs ++ zs) :=
  ⟨zs, rfl⟩

/-! ## Data model (datastore.js header comment and constructors) -/

/-- One entry of `stroke.points`: built by `DataStore.addStrokePoint`. -/
structure StrokePoint where
  x : ℚ
  y : ℚ
  pressure : ℚ
  time : ℚ
  deriving DecidableEq

/-- One entry of `trial.strokes`: built by `DataStore.startStroke`. -/
structure Stroke where
  strokeId : ℕ
  tool : String
  color : String
  thickness : ℚ
  startTime : ℚ
  endTime : Option ℚ
  points : List StrokePoint
  deriving DecidableEq

/-- One entry of `trial.actions`: built by `DataStore.recordAction`. -/
structure ActionRec where
  type : String
  time : ℚ
  deriving DecidableEq

/-- One entry of `trial.gazeData`: built by `DataStore.addGazePoint`. -/
structure GazeSample where
  x : ℚ
  y : ℚ
  time : ℚ
  deriving DecidableEq

/-- One entry of `sessionData.trials`: built by `DataStore.startTrial`. -/
structure Trial where
  trialNumber : ℕ
  startTime : ℚ
  endTime : Option ℚ
  strokes : List Stroke
  actions : List ActionRec
  gazeData : List GazeSample
  deriving DecidableEq

/-- The mutable state of the `DataStore` class: the trial list plus the
`_currentTrial` / `_currentStroke` references (as indices) and the
per-trial `_strokeCounter`. -/
structure DataStore where
  trials : List Trial
  currentTrial : Option ℕ
  currentStroke : Option (ℕ × ℕ)
  strokeCounter : ℕ
  deriving DecidableEq

/-- The `DataStore` constructor: empty trial list, no current trial or
stroke, stroke counter 0. -/
def initStore : DataStore := ⟨[], none, none, 0⟩

/-! ## Rounding helpers (datastore.js) -/

/-- `Math.round(v * 100) / 100` — two decimal places (stroke points). -/
def round2 (v : ℚ) : ℚ := ((round (v * 100) : ℤ) : ℚ) / 100

/-- `Math.round(v * 1000) / 1000` — three decimal places (pressure). -/
def round3 (v : ℚ) : ℚ := ((round (v * 1000) : ℤ) : ℚ) / 1000

/-- `Math.round(v * 10) / 10` — one decimal place (gaze samples). -/
def round1 (v : ℚ) : ℚ := ((round (v * 10) : ℤ) : ℚ) / 10

/-! ## DataStore operations (datastore.js) -/

/-- `DataStore.startTrial()` : appends a fresh open trial numbered
`trials.length + 1`, makes it current, resets `_strokeCounter`, and returns
the trial number.  `_currentStroke` is *not* touched (see claim C10). -/
def DataStore.startTrial (s : DataStore) (t : ℚ) : DataStore × ℕ :=
  (⟨s.trials ++ [⟨s.trials.length + 1, t, none, [], [], []⟩],
    some s.trials.length, s.currentStroke, 0⟩,
   s.trials.length + 1)

/-- `DataStore.endStroke()` : stamps `endTime` on the current stroke and
clears the `_currentStroke` reference; no-op when none is open. -/
def DataStore.endStroke (s : DataStore) (t : ℚ) : DataStore :=
  match s.currentStroke with
  | none => s
  | some (i, j) =>
    { s with
      trials := updAt s.trials i fun tr =>
        { tr with strokes := updAt tr.strokes j fun st =>
            { st with endTime := some t } },
      currentStroke := none }

/-- `DataStore.endTrial()` : stamps `endTime` on the current trial,
finalizes any in-progress stroke via `endStroke`, and clears the
`_currentTrial` reference; no-op when no trial is open. -/
def DataStore.endTrial (s : DataStore) (t : ℚ) : DataStore :=
  match s.currentTrial with
  | none => s
  | some i =>
    let s1 : DataStore :=
      { s with trials := updAt s.trials i fun tr => { tr with endTime := some t } }
    { s1.endStroke t with currentTrial := none }

/-- `DataStore.startStroke(tool, color, thickness)` : when a trial is open,
appends a fresh stroke (id `_strokeCounter++`, no points yet) to the open
trial's stroke list and makes it the current stroke; no-op otherwise. -/
def DataStore.startStroke (s : DataStore) (tool color : String) (th t : ℚ) :
    DataStore :=
  match s.currentTrial with
  | none => s
  | some i =>
    match s.trials[i]? with
    | none => s
    | some tr =>
      { s with
        trials := updAt s.trials i fun tr2 =>
          { tr2 with strokes :=
              tr2.strokes ++ [⟨s.strokeCounter, tool, color, th, t, none, []⟩] },
        currentStroke := some (i, tr.strokes.length),
        strokeCounter := s.strokeCounter + 1 }

/-- `DataStore.addStrokePoint(x, y, pressure)` : when a stroke is open,
appends a rounded point stamped `now()` to it; no-op otherwise.  The JS
default `pressure = 0.5` is applied by the caller model. -/
def DataStore.addStrokePoint (s : DataStore) (x y p t : ℚ) : DataStore :=
  match s.currentStroke with
  | none => s
  | some (i, j) =>
    { s with
      trials := updAt s.trials i fun tr =>
        { tr with strokes := updAt tr.strokes j fun st =>
            { st with points :=
                st.points ++ [⟨round2 x, round2 y, round3 p, t⟩] } } }

/-- `DataStore.recordAction(actionType)` : when a trial is open, appends an
action stamped `now()` to it; no-op otherwise. -/
def DataStore.recordAction (s : DataStore) (ty : String) (t : ℚ) : DataStore :=
  match s.currentTrial with
  | none => s
  | some i =>
    { s with
      trials := updAt s.trials i fun tr =>
        { tr with actions := tr.actions ++ [⟨ty, t⟩] } }

/-- `DataStore.addGazePoint(x, y)` : when a trial is open, appends a gaze
sample rounded to one decimal and stamped `now()`; no-op otherwise. -/
def DataStore.addGazePoint (s : DataStore) (x y t : ℚ) : DataStore :=
  match s.currentTrial with
  | none => s
  | some i =>
    { s with
      trials := updAt s.trials i fun tr =>
        { tr with gazeData := tr.gazeData ++ [⟨round1 x, round1 y, t⟩] } }

/-- `EyeTracker._onGaze(x, y)` (eyetracking.js): clamps the raw estimate to
the viewport `[0, W] × [0, H]` and forwards it to `addGazePoint`. -/
def onGaze (W H x y : ℚ) (s : DataStore) (t : ℚ) : DataStore :=
  s.addGazePoint (max 0 (min x W)) (max 0 (min y H)) t

/-! ## DataStore operation traces -/

/-- One public `DataStore` call together with the `performance.now()`
reading it observes. -/
inductive DOp where
  | startTrialOp (t : ℚ)
  | endTrialOp (t : ℚ)
  | startStrokeOp (tool color : String) (th t : ℚ)
  | addStrokePointOp (x y p t : ℚ)
  | endStrokeOp (t : ℚ)
  | recordActionOp (ty : String) (t : ℚ)
  | addGazePointOp (x y t : ℚ)
  deriving DecidableEq

/-- The clock reading observed by an operation. -/
def DOp.time : DOp → ℚ
  | .startTrialOp t => t
  | .endTrialOp t => t
  | .startStrokeOp _ _ _ t => t
  | .addStrokePointOp _ _ _ t => t
  | .endStrokeOp t => t
  | .recordActionOp _ t => t
  | .addGazePointOp _ _ t => t

/-- Run one `DataStore` call. -/
def runOp (s : DataStore) : DOp → DataStore
  | .startTrialOp t => (s.startTrial t).1
  | .endTrialOp t => s.endTrial t
  | .startStrokeOp tool color th t => s.startStroke tool color th t
  | .addStrokePointOp x y p t => s.addStrokePoint x y p t
  | .endStrokeOp t => s.endStroke t
  | .recordActionOp ty t => s.recordAction ty t
  | .addGazePointOp x y t => s.addGazePoint x y t

/-- Run a sequence of `DataStore` calls from a given state. -/
def runOps (s : DataStore) (ops : List DOp) : DataStore := ops.foldl runOp s

theorem runOps_append (s : DataStore) (ops1 ops2 : List DOp) :
    runOps s (ops1 ++ ops2) = runOps (runOps s ops1) ops2 :=
  List.foldl_append ..

theorem runOps_cons (s : DataStore) (op : DOp) (ops : List DOp) :
    runOps s (op :: ops) = runOps (runOp s op) ops := rfl

/-! ## DrawingEngine (drawing.js) -/

/-- A raw point buffered by the engine (`_addPoint`): coordinates and
pressure as delivered, unrounded. -/
structure EPoint where
  x : ℚ
  y : ℚ
  pressure : ℚ
  deriving DecidableEq

/-- One entry of the rendering history `_strokeHistory` pushed by
`_onPointerUp`: the tool settings at pointer-up plus the buffered points. -/
structure HistStroke where
  tool : String
  color : String
  thickness : ℚ
  points : List EPoint
  deriving DecidableEq

/-- The mutable state of the `DrawingEngine` class (canvas context state
excluded: painting is an output effect). -/
structure DrawingEngine where
  tool : String
  color : String
  thickness : ℚ
  isDrawing : Bool
  enabled : Bool
  strokeHistory : List HistStroke
  currentPoints : List EPoint
  deriving DecidableEq

/-- The `DrawingEngine` constructor defaults. -/
def initEngine : DrawingEngine :=
  ⟨"pen", "#1a1a2e", 4, false, false, [], []⟩

/-- A pointer event as seen by the handlers: canvas-local coordinates
(the `clientX/clientY − rect` conversion of `_getPointerPos` is DOM
geometry and is pre-applied), the optional hardware pressure, and the
platform `isPrimary` flag. -/
structure PEvent where
  x : ℚ
  y : ℚ
  pressure : Option ℚ
  isPrimary : Bool
  deriving DecidableEq

/-- `_getPointerPos`: pressure defaults to 0.5 when the device reports
none. -/
def getPointerPos (e : PEvent) : EPoint :=
  ⟨e.x, e.y, e.pressure.getD (1/2)⟩

/-- The engine and the store it records into (`drawing.js` holds a
`dataStore` reference; `app.js` wires both to the same instances). -/
structure Sys where
  eng : DrawingEngine
  store : DataStore
  deriving DecidableEq

/-- The state right after `init()` in app.js. -/
def initSys : Sys := ⟨initEngine, initStore⟩

/-- `DrawingEngine._onPointerDown`: ignores events when disabled or
non-primary; otherwise starts the local buffer with the event's point,
then calls `startStroke` and `addStrokePoint` on the store. -/
def Sys.pointerDown (sys : Sys) (e : PEvent) (t : ℚ) : Sys :=
  if sys.eng.enabled = false then sys
  else if e.isPrimary = false then sys
  else
    let pos := getPointerPos e
    ⟨{ sys.eng with isDrawing := true, currentPoints := [pos] },
     (sys.store.startStroke sys.eng.tool sys.eng.color sys.eng.thickness t).addStrokePoint
       pos.x pos.y pos.pressure t⟩

/-- `DrawingEngine._onPointerMove`: ignores events unless capturing,
enabled and primary; otherwise buffers the point and calls
`addStrokePoint`. -/
def Sys.pointerMove (sys : Sys) (e : PEvent) (t : ℚ) : Sys :=
  if sys.eng.isDrawing = false then sys
  else if sys.eng.enabled = false then sys
  else if e.isPrimary = false then sys
  else
    let pos := getPointerPos e
    ⟨{ sys.eng with currentPoints := sys.eng.currentPoints ++ [pos] },
     sys.store.addStrokePoint pos.x pos.y pos.pressure t⟩

/-- `DrawingEngine._onPointerUp` (also bound to pointercancel and
pointerleave): note that the handler inspects no field of the event — in
particular it does NOT test `isPrimary`.  When capturing, it commits the
buffered points to `_strokeHistory` iff the buffer is non-empty and calls
`endStroke`. -/
def Sys.pointerUp (sys : Sys) (_e : PEvent) (t : ℚ) : Sys :=
  if sys.eng.isDrawing = false then sys
  else
    ⟨{ sys.eng with
        isDrawing := false,
        strokeHistory :=
          if sys.eng.currentPoints.length > 0 then
            sys.eng.strokeHistory ++
              [⟨sys.eng.tool, sys.eng.color, sys.eng.thickness,
                sys.eng.currentPoints⟩]
          else sys.eng.strokeHistory,
        currentPoints := [] },
     sys.store.endStroke t⟩

/-- `DrawingEngine.undo`: no-op on empty history; otherwise pops the last
rendering-history entry, replays (canvas-only), and records an `undo`
action in the store. -/
def Sys.undo (sys : Sys) (t : ℚ) : Sys :=
  if sys.eng.strokeHistory.length = 0 then sys
  else
    ⟨{ sys.eng with strokeHistory := sys.eng.strokeHistory.dropLast },
     sys.store.recordAction "undo" t⟩

/-- `DrawingEngine.clearAll`: empties the rendering history, clears the
canvas (not modelled), and records a `clear` action in the store. -/
def Sys.clearAll (sys : Sys) (t : ℚ) : Sys :=
  ⟨{ sys.eng with strokeHistory := [] },
   sys.store.recordAction "clear" t⟩

/-- `app.js onStartTrial` (data effects): `drawing.reset()`,
`drawing.enable()`, `dataStore.startTrial()`.  The trial-count limit of
app.js only gates whether the handler runs at all and is not modelled. -/
def Sys.trialStart (sys : Sys) (t : ℚ) : Sys :=
  ⟨{ sys.eng with strokeHistory := [], currentPoints := [], enabled := true },
   (sys.store.startTrial t).1⟩

/-- `app.js onEndTrial` (data effects): `drawing.disable()`,
`dataStore.endTrial()`. -/
def Sys.trialEnd (sys : Sys) (t : ℚ) : Sys :=
  ⟨{ sys.eng with enabled := false, isDrawing := false },
   sys.store.endTrial t⟩

/-- Gaze delivery (`EyeTracker._onGaze` while tracking): clamp to the
viewport and forward to the store. -/
def Sys.gaze (sys : Sys) (W H x y t : ℚ) : Sys :=
  ⟨sys.eng, onGaze W H x y sys.store t⟩

/-- `DrawingEngine.setTool`. -/
def Sys.setTool (sys : Sys) (tool : String) : Sys :=
  ⟨{ sys.eng with tool := tool }, sys.store⟩

/-- `DrawingEngine.setColor` (also switches the tool to pen). -/
def Sys.setColor (sys : Sys) (c : String) : Sys :=
  ⟨{ sys.eng with color := c, tool := "pen" }, sys.store⟩

/-- `DrawingEngine.setThickness`. -/
def Sys.setThickness (sys : Sys) (th : ℚ) : Sys :=
  ⟨{ sys.eng with thickness := th }, sys.store⟩

/-- One externally-triggered event of the running system: pointer events,
toolbar clicks, trial-lifecycle buttons and gaze callbacks, exactly as
wired in app.js. -/
inductive Ev where
  | pdown (e : PEvent) (t : ℚ)
  | pmove (e : PEvent) (t : ℚ)
  | pup (e : PEvent) (t : ℚ)
  | undoEv (t : ℚ)
  | clearEv (t : ℚ)
  | trialStartEv (t : ℚ)
  | trialEndEv (t : ℚ)
  | gazeEv (W H x y t : ℚ)
  | setToolEv (tool : String)
  | setColorEv (c : String)
  | setThicknessEv (th : ℚ)
  deriving DecidableEq

/-- Dispatch one event to its handler. -/
def runEv (sys : Sys) : Ev → Sys
  | .pdown e t => sys.pointerDown e t
  | .pmove e t => sys.pointerMove e t
  | .pup e t => sys.pointerUp e t
  | .undoEv t => sys.undo t
  | .clearEv t => sys.clearAll t
  | .trialStartEv t => sys.trialStart t
  | .trialEndEv t => sys.trialEnd t
  | .gazeEv W H x y t => sys.gaze W H x y t
  | .setToolEv tool => sys.setTool tool
  | .setColorEv c => sys.setColor c
  | .setThicknessEv th => sys.setThickness th

/-- Run a sequence of events from a given system state. -/
def runEvs (sys : Sys) (evs : List Ev) : Sys := evs.foldl runEv sys

theorem runEvs_cons (sys : Sys) (ev : Ev) (evs : List Ev) :
    runEvs sys (ev :: evs) = runEvs (runEv sys ev) evs := rfl

/-! ## List lookup helpers -/

theorem lt_of_getElem?_eq_some {α : Type} {l : List α} {i : ℕ} {x : α}
    (h : l[i]? = some x) : i < l.length := by
  by_contra hn
  rw [List.getElem?_eq_none (Nat.le_of_not_lt hn)] at h
  exact Option.noConfusion h

theorem getElem?_append_some {α : Type} {l : List α} (l2 : List α) {i : ℕ}
    {x : α} (h : l[i]? = some x) : (l ++ l2)[i]? = some x := by
  rw [List.getElem?_append_left (lt_of_getElem?_eq_some h)]
  exact h

theorem getElem?_concat_cases {α : Type} {l : List α} {e : α} {i : ℕ} {x : α}
    (h : (l ++ [e])[i]? = some x) :
    l[i]? = some x ∨ (i = l.length ∧ x = e) := by
  rcases Nat.lt_trichotomy i l.length with hlt | heq | hgt
  · left
    rwa [List.getElem?_append_left hlt] at h
  · right
    subst heq
    rw [List.getElem?_concat_length] at h
    exact ⟨rfl, (Option.some_inj.mp h).symm⟩
  · exfalso
    rw [List.getElem?_eq_none (by simpa using hgt)] at h
    exact Option.noConfusion h

/-! ## The reachability invariant of the store -/

/-- Structural invariant maintained by every `DataStore` state reachable
from the constructor state: the `_currentTrial` / `_currentStroke`
references are live list elements that have not been finalized yet, a
store with no open trial has no open stroke, `trialNumber` is the
1-indexed position of the trial, the stroke counter counts the open
trial's strokes, and `strokeId` is the 0-indexed position of the stroke
inside its trial. -/
structure StoreInv (s : DataStore) : Prop where
  ct : ∀ i : ℕ, s.currentTrial = some i →
    ∃ tr, s.trials[i]? = some tr ∧ tr.endTime = none ∧
      s.strokeCounter = tr.strokes.length
  cs : ∀ i j : ℕ, s.currentStroke = some (i, j) →
    ∃ tr st, s.trials[i]? = some tr ∧ tr.strokes[j]? = some st ∧
      st.endTime = none
  nn : s.currentTrial = none → s.currentStroke = none
  num : ∀ (i : ℕ) (tr : Trial), s.trials[i]? = some tr → tr.trialNumber = i + 1
  sid : ∀ (i : ℕ) (tr : Trial) (j : ℕ) (st : Stroke),
    s.trials[i]? = some tr → tr.strokes[j]? = some st → st.strokeId = j

theorem inv_initStore : StoreInv initStore := by
  constructor <;> intro i <;> simp [initStore]

theorem num_updAt {l : List Trial} {k : ℕ} {f : Trial → Trial}
    (hf : ∀ tr, (f tr).trialNumber = tr.trialNumber)
    (h : ∀ i tr, l[i]? = some tr → tr.trialNumber = i + 1) :
    ∀ i tr, (updAt l k f)[i]? = some tr → tr.trialNumber = i + 1 := by
  intro i tr hi
  rw [getElem?_updAt] at hi
  split at hi
  · obtain ⟨tr0, h0, rfl⟩ := Option.map_eq_some'.mp hi
    rw [hf]
    exact h i tr0 h0
  · exact h i tr hi

theorem sid_updAt {l : List Trial} {k : ℕ} {f : Trial → Trial}
    (hf : ∀ (tr : Trial) (j : ℕ) (st : Stroke), (f tr).strokes[j]? = some st →
      ∃ st0, tr.strokes[j]? = some st0 ∧ st.strokeId = st0.strokeId)
    (h : ∀ (i : ℕ) (tr : Trial) (j : ℕ) (st : Stroke),
      l[i]? = some tr → tr.strokes[j]? = some st → st.strokeId = j) :
    ∀ (i : ℕ) (tr : Trial) (j : ℕ) (st : Stroke),
      (updAt l k f)[i]? = some tr → tr.strokes[j]? = some st →
      st.strokeId = j := by
  intro i tr j st hi hj
  rw [getElem?_updAt] at hi
  split at hi
  · obtain ⟨tr0, h0, rfl⟩ := Option.map_eq_some'.mp hi
    obtain ⟨st0, hst0, hid⟩ := hf tr0 j st hj
    rw [hid]
    exact h i tr0 j st0 h0 hst0
  · exact h i tr j st hi hj

theorem inv_startTrial (s : DataStore) (t : ℚ) (h : StoreInv s) :
    StoreInv (s.startTrial t).1 := by
  refine ⟨?_, ?_, ?_, ?_, ?_⟩
  · intro i hi
    simp only [DataStore.startTrial, Option.some_inj] at hi
    subst hi
    exact ⟨_, List.getElem?_concat_length .., rfl, rfl⟩
  · intro i j hij
    simp only [DataStore.startTrial] at hij
    obtain ⟨tr, st, htr, hst, hend⟩ := h.cs i j hij
    exact ⟨tr, st, getElem?_append_some _ htr, hst, hend⟩
  · intro hnone
    simp [DataStore.startTrial] at hnone
  · intro i tr hi
    simp only [DataStore.startTrial] at hi
    rcases getElem?_concat_cases hi with h0 | ⟨rfl, rfl⟩
    · exact h.num i tr h0
    · rfl
  · intro i tr j st hi hj
    simp only [DataStore.startTrial] at hi
    rcases getElem?_concat_cases hi with h0 | ⟨rfl, rfl⟩
    · exact h.sid i tr j st h0 hj
    · simp at hj

theorem storeInv_updAt_trials (s : DataStore) (k : ℕ) (f : Trial → Trial)
    (hnum : ∀ tr, (f tr).trialNumber = tr.trialNumber)
    (hend : ∀ tr, (f tr).endTime = tr.endTime)
    (hlen : ∀ tr, (f tr).strokes.length = tr.strokes.length)
    (hst : ∀ (tr : Trial) (j : ℕ) (st : Stroke), (f tr).strokes[j]? = some st →
      ∃ st0, tr.strokes[j]? = some st0 ∧ st.strokeId = st0.strokeId ∧
        st.endTime = st0.endTime)
    (h : StoreInv s) : StoreInv { s with trials := updAt s.trials k f } := by
  refine ⟨?_, ?_, ?_, num_updAt hnum h.num,
    sid_updAt (fun tr j st hj => ?_) h.sid⟩
  · intro i hi
    obtain ⟨tr, htr, he, hc⟩ := h.ct i hi
    by_cases hik : i = k
    · subst hik
      refine ⟨f tr, ?_, ?_, ?_⟩
      · rw [getElem?_updAt, if_pos rfl, htr]
        rfl
      · rw [hend]
        exact he
      · rw [hlen]
        exact hc
    · exact ⟨tr, by rw [getElem?_updAt, if_neg hik]; exact htr, he, hc⟩
  · intro i j hij
    obtain ⟨tr, st, htr, hstj, he⟩ := h.cs i j hij
    by_cases hik : i = k
    · subst hik
      have hlt : j < (f tr).strokes.length := by
        rw [hlen]
        exact lt_of_getElem?_eq_some hstj
      obtain ⟨st0, hst0, _, hendeq⟩ := hst tr j _ (List.getElem?_eq_getElem hlt)
      rw [hstj] at hst0
      obtain rfl := Option.some_inj.mp hst0.symm
      refine ⟨f tr, (f tr).strokes[j], ?_, List.getElem?_eq_getElem hlt, ?_⟩
      · rw [getElem?_updAt, if_pos rfl, htr]
        rfl
      · rw [hendeq]
        exact he
    · exact ⟨tr, st, by rw [getElem?_updAt, if_neg hik]; exact htr, hstj, he⟩
  · intro hnone
    exact h.nn hnone
  · obtain ⟨st0, h0, hid, _⟩ := hst tr j st hj
    exact ⟨st0, h0, hid⟩


theorem recordAction_eq (s : DataStore) (ty : String) (t : ℚ) (i : ℕ)
    (hct : s.currentTrial = some i) :
    s.recordAction ty t =
      { s with trials := updAt s.trials i fun tr =>
          { tr with actions := tr.actions ++ [⟨ty, t⟩] } } := by
  simp [DataStore.recordAction, hct]

theorem addGazePoint_eq (s : DataStore) (x y t : ℚ) (i : ℕ)
    (hct : s.currentTrial = some i) :
    s.addGazePoint x y t =
      { s with trials := updAt s.trials i fun tr =>
          { tr with gazeData := tr.gazeData ++ [⟨round1 x, round1 y, t⟩] } } := by
  simp [DataStore.addGazePoint, hct]

theorem addStrokePoint_eq (s : DataStore) (x y p t : ℚ) (i j : ℕ)
    (hcs : s.currentStroke = some (i, j)) :
    s.addStrokePoint x y p t =
      { s with trials := updAt s.trials i fun tr =>
          { tr with strokes := updAt tr.strokes j fun st =>
              { st with points :=
                  st.points ++ [⟨round2 x, round2 y, round3 p, t⟩] } } } := by
  simp [DataStore.addStrokePoint, hcs]

theorem inv_recordAction (s : DataStore) (ty : String) (t : ℚ)
    (h : StoreInv s) : StoreInv (s.recordAction ty t) := by
  cases hct : s.currentTrial with
  | none => simpa [DataStore.recordAction, hct] using h
  | some i =>
    rw [recordAction_eq s ty t i hct]
    exact storeInv_updAt_trials s i
      (fun tr => { tr with actions := tr.actions ++ [⟨ty, t⟩] })
      (fun tr => rfl) (fun tr => rfl) (fun tr => rfl)
      (fun tr j st hj => ⟨st, hj, rfl, rfl⟩) h

theorem inv_addGazePoint (s : DataStore) (x y t : ℚ)
    (h : StoreInv s) : StoreInv (s.addGazePoint x y t) := by
  cases hct : s.currentTrial with
  | none => simpa [DataStore.addGazePoint, hct] using h
  | some i =>
    rw [addGazePoint_eq s x y t i hct]
    exact storeInv_updAt_trials s i
      (fun tr => { tr with gazeData := tr.gazeData ++ [⟨round1 x, round1 y, t⟩] })
      (fun tr => rfl) (fun tr => rfl) (fun tr => rfl)
      (fun tr j st hj => ⟨st, hj, rfl, rfl⟩) h

theorem inv_addStrokePoint (s : DataStore) (x y p t : ℚ)
    (h : StoreInv s) : StoreInv (s.addStrokePoint x y p t) := by
  cases hcs : s.currentStroke with
  | none => simpa [DataStore.addStrokePoint, hcs] using h
  | some ij =>
    obtain ⟨i, j⟩ := ij
    rw [addStrokePoint_eq s x y p t i j hcs]
    refine storeInv_updAt_trials s i
      (fun tr => { tr with strokes := updAt tr.strokes j fun st =>
          { st with points := st.points ++ [⟨round2 x, round2 y, round3 p, t⟩] } })
      (fun tr => rfl) (fun tr => rfl) (fun tr => length_updAt ..)
      (fun tr j2 st hj => ?_) h
    rw [getElem?_updAt] at hj
    split at hj
    · obtain ⟨st0, h0, rfl⟩ := Option.map_eq_some'.mp hj
      exact ⟨st0, h0, rfl, rfl⟩
    · exact ⟨st, hj, rfl, rfl⟩

theorem endStroke_eq (s : DataStore) (t : ℚ) (i j : ℕ)
    (hcs : s.currentStroke = some (i, j)) :
    s.endStroke t =
      { s with
        trials := updAt s.trials i fun tr =>
          { tr with strokes := updAt tr.strokes j fun st =>
              { st with endTime := some t } },
        currentStroke := none } := by
  simp [DataStore.endStroke, hcs]

theorem endTrial_eq_noStroke (s : DataStore) (t : ℚ) (i : ℕ)
    (hct : s.currentTrial = some i) (hcs : s.currentStroke = none) :
    s.endTrial t =
      { s with
        trials := updAt s.trials i fun tr => { tr with endTime := some t },
        currentTrial := none } := by
  simp [DataStore.endTrial, hct, DataStore.endStroke, hcs]

theorem endTrial_eq_stroke (s : DataStore) (t : ℚ) (i i2 j2 : ℕ)
    (hct : s.currentTrial = some i) (hcs : s.currentStroke = some (i2, j2)) :
    s.endTrial t =
      { s with
        trials := updAt (updAt s.trials i fun tr => { tr with endTime := some t })
          i2 fun tr =>
            { tr with strokes := updAt tr.strokes j2 fun st =>
                { st with endTime := some t } },
        currentTrial := none,
        currentStroke := none } := by
  simp [DataStore.endTrial, hct, DataStore.endStroke, hcs]

theorem startStroke_eq (s : DataStore) (tool color : String) (th t : ℚ)
    (i : ℕ) (tr : Trial) (hct : s.currentTrial = some i)
    (htr : s.trials[i]? = some tr) :
    s.startStroke tool color th t =
      { s with
        trials := updAt s.trials i fun tr2 =>
          { tr2 with strokes :=
              tr2.strokes ++ [⟨s.strokeCounter, tool, color, th, t, none, []⟩] },
        currentStroke := some (i, tr.strokes.length),
        strokeCounter := s.strokeCounter + 1 } := by
  simp [DataStore.startStroke, hct, htr]

theorem inv_endStroke (s : DataStore) (t : ℚ) (h : StoreInv s) :
    StoreInv (s.endStroke t) := by
  cases hcs : s.currentStroke with
  | none => simpa [DataStore.endStroke, hcs] using h
  | some ij =>
    obtain ⟨i, j⟩ := ij
    rw [endStroke_eq s t i j hcs]
    refine ⟨?_, ?_, ?_, num_updAt (fun tr => rfl) h.num,
      sid_updAt (fun tr j2 st hj => ?_) h.sid⟩
    · intro i2 hi2
      obtain ⟨tr, htr, he, hc⟩ := h.ct i2 hi2
      by_cases hik : i2 = i
      · subst hik
        refine ⟨{ tr with strokes := updAt tr.strokes j fun st =>
            { st with endTime := some t } }, ?_, he, ?_⟩
        · rw [getElem?_updAt, if_pos rfl, htr]
          rfl
        · simpa [length_updAt] using hc
      · exact ⟨tr, by rw [getElem?_updAt, if_neg hik]; exact htr, he, hc⟩
    · intro i2 j2 h2
      exact absurd h2 (by simp)
    · intro _
      rfl
    · rw [getElem?_updAt] at hj
      split at hj
      · obtain ⟨st0, h0, rfl⟩ := Option.map_eq_some'.mp hj
        exact ⟨st0, h0, rfl⟩
      · exact ⟨st, hj, rfl⟩

theorem inv_endTrial (s : DataStore) (t : ℚ) (h : StoreInv s) :
    StoreInv (s.endTrial t) := by
  cases hct : s.currentTrial with
  | none => simpa [DataStore.endTrial, hct] using h
  | some i =>
    cases hcs : s.currentStroke with
    | none =>
      rw [endTrial_eq_noStroke s t i hct hcs]
      refine ⟨?_, ?_, ?_, num_updAt (fun tr => rfl) h.num,
        sid_updAt (fun tr j st hj => ⟨st, hj, rfl⟩) h.sid⟩
      · intro i2 hi2
        exact absurd hi2 (by simp)
      · intro i2 j2 h2
        exact absurd h2 (by simp [hcs])
      · intro _
        exact hcs
    | some ij =>
      obtain ⟨i2, j2⟩ := ij
      rw [endTrial_eq_stroke s t i i2 j2 hct hcs]
      refine ⟨?_, ?_, ?_,
        num_updAt (fun tr => rfl) (num_updAt (fun tr => rfl) h.num),
        sid_updAt (fun tr j st hj => ?_)
          (sid_updAt (fun tr j st hj => ⟨st, hj, rfl⟩) h.sid)⟩
      · intro i3 hi3
        exact absurd hi3 (by simp)
      · intro i3 j3 h3
        exact absurd h3 (by simp)
      · intro _
        rfl
      · rw [getElem?_updAt] at hj
        split at hj
        · obtain ⟨st0, h0, rfl⟩ := Option.map_eq_some'.mp hj
          exact ⟨st0, h0, rfl⟩
        · exact ⟨st, hj, rfl⟩

theorem inv_startStroke (s : DataStore) (tool color : String) (th t : ℚ)
    (h : StoreInv s) : StoreInv (s.startStroke tool color th t) := by
  cases hct : s.currentTrial with
  | none => simpa [DataStore.startStroke, hct] using h
  | some i =>
    cases htr : s.trials[i]? with
    | none => simpa [DataStore.startStroke, hct, htr] using h
    | some tr =>
      obtain ⟨tr0, htr0, hend0, hcnt0⟩ := h.ct i hct
      rw [htr] at htr0
      obtain rfl := Option.some_inj.mp htr0
      rw [startStroke_eq s tool color th t i tr hct htr]
      refine ⟨?_, ?_, ?_, num_updAt (fun tr2 => rfl) h.num, ?_⟩
      · intro i2 hi2
        rw [hct] at hi2
        obtain rfl := Option.some_inj.mp hi2
        refine ⟨{ tr with strokes :=
            tr.strokes ++ [⟨s.strokeCounter, tool, color, th, t, none, []⟩] },
          ?_, hend0, ?_⟩
        · rw [getElem?_updAt, if_pos rfl, htr]
          rfl
        · simp [hcnt0]
      · intro i2 j2 hij2
        have hpair : (i, tr.strokes.length) = (i2, j2) := Option.some_inj.mp hij2
        obtain ⟨rfl, rfl⟩ : i = i2 ∧ tr.strokes.length = j2 :=
          ⟨congrArg Prod.fst hpair, congrArg Prod.snd hpair⟩
        refine ⟨{ tr with strokes :=
            tr.strokes ++ [⟨s.strokeCounter, tool, color, th, t, none, []⟩] },
          ⟨s.strokeCounter, tool, color, th, t, none, []⟩, ?_, ?_, rfl⟩
        · rw [getElem?_updAt, if_pos rfl, htr]
          rfl
        · exact List.getElem?_concat_length ..
      · intro hnone
        exact absurd hnone (by simp [hct])
      · intro i2 tr2 j2 st2 hi2 hj2
        rw [getElem?_updAt] at hi2
        by_cases heq : i2 = i
        · rw [if_pos heq] at hi2
          subst heq
          rw [htr] at hi2
          have htr2 : tr2 = { tr with strokes :=
              tr.strokes ++ [⟨s.strokeCounter, tool, color, th, t, none, []⟩] } :=
            (Option.some_inj.mp hi2).symm
          subst htr2
          rcases getElem?_concat_cases hj2 with hold | ⟨rfl, rfl⟩
          · exact h.sid i2 tr j2 st2 htr hold
          · simpa using hcnt0
        · rw [if_neg heq] at hi2
          exact h.sid i2 tr2 j2 st2 hi2 hj2

theorem inv_runOp (s : DataStore) (op : DOp) (h : StoreInv s) :
    StoreInv (runOp s op) := by
  cases op with
  | startTrialOp t => exact inv_startTrial s t h
  | endTrialOp t => exact inv_endTrial s t h
  | startStrokeOp tool color th t => exact inv_startStroke s tool color th t h
  | addStrokePointOp x y p t => exact inv_addStrokePoint s x y p t h
  | endStrokeOp t => exact inv_endStroke s t h
  | recordActionOp ty t => exact inv_recordAction s ty t h
  | addGazePointOp x y t => exact inv_addGazePoint s x y t h

theorem inv_runOps (s : DataStore) (ops : List DOp) (h : StoreInv s) :
    StoreInv (runOps s ops) := by
  induction ops generalizing s with
  | nil => exact h
  | cons op ops ih => exact ih _ (inv_runOp s op h)

theorem inv_reach (ops : List DOp) : StoreInv (runOps initStore ops) :=
  inv_runOps _ _ inv_initStore

/-! ## The append-only relation between successive store states (C1) -/

/-- A committed stroke record may only evolve by gaining appended points
and by having its `endTime` stamped once (while still open): every scalar
field and every already-committed point is preserved verbatim. -/
def StrokeExt (a b : Stroke) : Prop :=
  b.strokeId = a.strokeId ∧ b.tool = a.tool ∧ b.color = a.color ∧
  b.thickness = a.thickness ∧ b.startTime = a.startTime ∧
  IsExt a.points b.points ∧
  ∀ e : ℚ, a.endTime = some e → b.endTime = some e

/-- A committed trial record may only evolve by gaining appended strokes,
actions and gaze samples, by extension of its existing strokes, and by
having its `endTime` stamped once; its number and start time never
change. -/
def TrialExt (a b : Trial) : Prop :=
  b.trialNumber = a.trialNumber ∧ b.startTime = a.startTime ∧
  (∀ e : ℚ, a.endTime = some e → b.endTime = some e) ∧
  (∀ (j : ℕ) (st : Stroke), a.strokes[j]? = some st →
    ∃ st2, b.strokes[j]? = some st2 ∧ StrokeExt st st2) ∧
  IsExt a.actions b.actions ∧
  IsExt a.gazeData b.gazeData

/-- Store-level append-only evolution: every trial present in `a` is still
present at the same position in `b` and has only been extended.  In
particular no committed Stroke, ActionRec or GazeSample record is ever
removed or rewritten. -/
def Preserves (a b : DataStore) : Prop :=
  ∀ (i : ℕ) (tr : Trial), a.trials[i]? = some tr →
    ∃ tr2, b.trials[i]? = some tr2 ∧ TrialExt tr tr2

theorem strokeExt_refl (a : Stroke) : StrokeExt a a :=
  ⟨rfl, rfl, rfl, rfl, rfl, isExt_refl _, fun _ he => he⟩

theorem trialExt_refl (a : Trial) : TrialExt a a :=
  ⟨rfl, rfl, fun _ he => he, fun _ st hj => ⟨st, hj, strokeExt_refl st⟩,
   isExt_refl _, isExt_refl _⟩

theorem preserves_refl (a : DataStore) : Preserves a a :=
  fun _ tr h => ⟨tr, h, trialExt_refl tr⟩

theorem strokeExt_trans {a b c : Stroke} (h1 : StrokeExt a b)
    (h2 : StrokeExt b c) : StrokeExt a c := by
  obtain ⟨i1, t1, c1, th1, s1, p1, e1⟩ := h1
  obtain ⟨i2, t2, c2, th2, s2, p2, e2⟩ := h2
  exact ⟨i2.trans i1, t2.trans t1, c2.trans c1, th2.trans th1, s2.trans s1,
    isExt_trans p1 p2, fun e he => e2 e (e1 e he)⟩

theorem trialExt_trans {a b c : Trial} (h1 : TrialExt a b)
    (h2 : TrialExt b c) : TrialExt a c := by
  obtain ⟨n1, s1, e1, st1, a1, g1⟩ := h1
  obtain ⟨n2, s2, e2, st2, a2, g2⟩ := h2
  refine ⟨n2.trans n1, s2.trans s1, fun e he => e2 e (e1 e he), ?_,
    isExt_trans a1 a2, isExt_trans g1 g2⟩
  intro j st hj
  obtain ⟨stb, hb, hab⟩ := st1 j st hj
  obtain ⟨stc, hc, hbc⟩ := st2 j stb hb
  exact ⟨stc, hc, strokeExt_trans hab hbc⟩

theorem preserves_trans {a b c : DataStore} (h1 : Preserves a b)
    (h2 : Preserves b c) : Preserves a c := by
  intro i tr h
  obtain ⟨trb, hb, hab⟩ := h1 i tr h
  obtain ⟨trc, hc, hbc⟩ := h2 i trb hb
  exact ⟨trc, hc, trialExt_trans hab hbc⟩

theorem preserves_updAt (s : DataStore) (k : ℕ) (f : Trial → Trial)
    (hf : ∀ tr, s.trials[k]? = some tr → TrialExt tr (f tr)) :
    Preserves s { s with trials := updAt s.trials k f } := by
  intro i tr hi
  by_cases hik : i = k
  · subst hik
    exact ⟨f tr, by rw [getElem?_updAt, if_pos rfl, hi]; rfl, hf tr hi⟩
  · exact ⟨tr, by rw [getElem?_updAt, if_neg hik]; exact hi, trialExt_refl tr⟩

theorem preserves_of_trials_eq {a b b2 : DataStore} (h : Preserves a b)
    (heq : b2.trials = b.trials) : Preserves a b2 := by
  intro i tr hi
  obtain ⟨tr2, h2, he⟩ := h i tr hi
  exact ⟨tr2, by rw [heq]; exact h2, he⟩

/-- A trial extension that only appends to the stroke list. -/
theorem trialExt_append_stroke (tr : Trial) (new : Stroke) :
    TrialExt tr { tr with strokes := tr.strokes ++ [new] } :=
  ⟨rfl, rfl, fun _ he => he,
   fun _ st hj => ⟨st, getElem?_append_some _ hj, strokeExt_refl st⟩,
   isExt_refl _, isExt_refl _⟩

/-- A trial extension that only appends a point to one of its strokes. -/
theorem trialExt_point (tr : Trial) (j : ℕ) (pt : StrokePoint) :
    TrialExt tr { tr with strokes := updAt tr.strokes j fun st =>
      { st with points := st.points ++ [pt] } } := by
  refine ⟨rfl, rfl, fun _ he => he, ?_, isExt_refl _, isExt_refl _⟩
  intro j2 st hj
  by_cases hjj : j2 = j
  · subst hjj
    refine ⟨{ st with points := st.points ++ [pt] },
      by rw [getElem?_updAt, if_pos rfl, hj]; rfl,
      rfl, rfl, rfl, rfl, rfl, isExt_append .., fun _ he => he⟩
  · exact ⟨st, by rw [getElem?_updAt, if_neg hjj]; exact hj, strokeExt_refl st⟩

/-- A trial extension that stamps `endTime` on a stroke that is not yet
finalized. -/
theorem trialExt_stampStroke (tr : Trial) (j : ℕ) (t : ℚ) (st0 : Stroke)
    (hst0 : tr.strokes[j]? = some st0) (hend0 : st0.endTime = none) :
    TrialExt tr { tr with strokes := updAt tr.strokes j fun st =>
      { st with endTime := some t } } := by
  refine ⟨rfl, rfl, fun _ he => he, ?_, isExt_refl _, isExt_refl _⟩
  intro j2 st hj
  by_cases hjj : j2 = j
  · subst hjj
    rw [hst0] at hj
    obtain rfl := Option.some_inj.mp hj
    refine ⟨{ st0 with endTime := some t },
      by rw [getElem?_updAt, if_pos rfl, hst0]; rfl,
      rfl, rfl, rfl, rfl, rfl, isExt_refl _, ?_⟩
    intro e he
    rw [hend0] at he
    exact absurd he (by simp)
  · exact ⟨st, by rw [getElem?_updAt, if_neg hjj]; exact hj, strokeExt_refl st⟩

theorem preserves_runOp (s : DataStore) (op : DOp) (h : StoreInv s) :
    Preserves s (runOp s op) := by
  cases op with
  | startTrialOp t =>
    intro i tr hi
    exact ⟨tr, getElem?_append_some _ hi, trialExt_refl tr⟩
  | endTrialOp t =>
    show Preserves s (s.endTrial t)
    cases hct : s.currentTrial with
    | none =>
      rw [show s.endTrial t = s from by simp [DataStore.endTrial, hct]]
      exact preserves_refl s
    | some i =>
      obtain ⟨tr0, htr0, hend0, _⟩ := h.ct i hct
      cases hcs : s.currentStroke with
      | none =>
        rw [endTrial_eq_noStroke s t i hct hcs]
        refine preserves_of_trials_eq (preserves_updAt s i _ ?_) rfl
        intro tr2 htr2
        rw [htr0] at htr2
        obtain rfl := Option.some_inj.mp htr2
        refine ⟨rfl, rfl, ?_, fun _ st hj => ⟨st, hj, strokeExt_refl st⟩,
          isExt_refl _, isExt_refl _⟩
        intro e he
        rw [hend0] at he
        exact absurd he (by simp)
      | some ij =>
        obtain ⟨i2, j2⟩ := ij
        obtain ⟨tr1, st1, htr1, hst1, hendst1⟩ := h.cs i2 j2 hcs
        rw [endTrial_eq_stroke s t i i2 j2 hct hcs]
        refine preserves_of_trials_eq
          (preserves_trans (preserves_updAt s i _ ?_)
            (preserves_of_trials_eq
              (preserves_updAt
                ({ s with trials := updAt s.trials i fun tr =>
                    { tr with endTime := some t } }) i2 _ ?_) rfl)) rfl
        · intro tr2 htr2
          rw [htr0] at htr2
          obtain rfl := Option.some_inj.mp htr2
          refine ⟨rfl, rfl, ?_, fun _ st hj => ⟨st, hj, strokeExt_refl st⟩,
            isExt_refl _, isExt_refl _⟩
          intro e he
          rw [hend0] at he
          exact absurd he (by simp)
        · intro tr2 htr2
          have hs2 : tr2.strokes[j2]? = some st1 := by
            rw [getElem?_updAt] at htr2
            split at htr2
            case isTrue heq =>
              rw [htr1] at htr2
              obtain rfl := Option.some_inj.mp htr2.symm
              exact hst1
            case isFalse heq =>
              rw [htr1] at htr2
              obtain rfl := Option.some_inj.mp htr2
              exact hst1
          exact trialExt_stampStroke tr2 j2 t st1 hs2 hendst1
  | startStrokeOp tool color th t =>
    show Preserves s (s.startStroke tool color th t)
    cases hct : s.currentTrial with
    | none =>
      rw [show s.startStroke tool color th t = s from by
        simp [DataStore.startStroke, hct]]
      exact preserves_refl s
    | some i =>
      cases htr : s.trials[i]? with
      | none =>
        rw [show s.startStroke tool color th t = s from by
          simp [DataStore.startStroke, hct, htr]]
        exact preserves_refl s
      | some tr =>
        rw [startStroke_eq s tool color th t i tr hct htr]
        exact preserves_of_trials_eq
          (preserves_updAt s i _ fun tr2 _ => trialExt_append_stroke tr2 _) rfl
  | addStrokePointOp x y p t =>
    show Preserves s (s.addStrokePoint x y p t)
    cases hcs : s.currentStroke with
    | none =>
      rw [show s.addStrokePoint x y p t = s from by
        simp [DataStore.addStrokePoint, hcs]]
      exact preserves_refl s
    | some ij =>
      obtain ⟨i, j⟩ := ij
      rw [addStrokePoint_eq s x y p t i j hcs]
      exact preserves_of_trials_eq
        (preserves_updAt s i _ fun tr2 _ => trialExt_point tr2 j _) rfl
  | endStrokeOp t =>
    show Preserves s (s.endStroke t)
    cases hcs : s.currentStroke with
    | none =>
      rw [show s.endStroke t = s from by simp [DataStore.endStroke, hcs]]
      exact preserves_refl s
    | some ij =>
      obtain ⟨i, j⟩ := ij
      obtain ⟨tr1, st1, htr1, hst1, hendst1⟩ := h.cs i j hcs
      rw [endStroke_eq s t i j hcs]
      refine preserves_of_trials_eq (preserves_updAt s i _ ?_) rfl
      intro tr2 htr2
      rw [htr1] at htr2
      obtain rfl := Option.some_inj.mp htr2
      exact trialExt_stampStroke tr1 j t st1 hst1 hendst1
  | recordActionOp ty t =>
    show Preserves s (s.recordAction ty t)
    cases hct : s.currentTrial with
    | none =>
      rw [show s.recordAction ty t = s from by
        simp [DataStore.recordAction, hct]]
      exact preserves_refl s
    | some i =>
      rw [recordAction_eq s ty t i hct]
      refine preserves_of_trials_eq (preserves_updAt s i _ ?_) rfl
      intro tr2 _
      exact ⟨rfl, rfl, fun _ he => he,
        fun _ st hj => ⟨st, hj, strokeExt_refl st⟩,
        isExt_append .., isExt_refl _⟩
  | addGazePointOp x y t =>
    show Preserves s (s.addGazePoint x y t)
    cases hct : s.currentTrial with
    | none =>
      rw [show s.addGazePoint x y t = s from by
        simp [DataStore.addGazePoint, hct]]
      exact preserves_refl s
    | some i =>
      rw [addGazePoint_eq s x y t i hct]
      refine preserves_of_trials_eq (preserves_updAt s i _ ?_) rfl
      intro tr2 _
      exact ⟨rfl, rfl, fun _ he => he,
        fun _ st hj => ⟨st, hj, strokeExt_refl st⟩,
        isExt_refl _, isExt_append ..⟩

/-! ## Claim theorems -/

/-- C1: for every sequence of CaptureStore operations, no previously
committed Stroke, ActionRec or GazeSample record is ever removed from or
rewritten in the session's trial lists: after any further operations,
every trial present before is still at the same position with the same
number, start time and (once set) end time, every stroke it held is still
at the same position with all scalar fields and all committed points
intact (points only appended, `endTime` only stamped while it was still
open), and its action and gaze lists have only been extended at the end. -/
theorem c1_capture_append_only (ops more : List DOp) :
    Preserves (runOps initStore ops) (runOps initStore (ops ++ more)) := by
  induction more generalizing ops with
  | nil => simpa using preserves_refl (runOps initStore ops)
  | cons op more ih =>
    have h1 : Preserves (runOps initStore ops)
        (runOps initStore (ops ++ [op])) := by
      rw [runOps_append]
      exact preserves_runOp _ op (inv_reach ops)
    have h2 := ih (ops ++ [op])
    rw [List.append_assoc] at h2
    exact preserves_trans h1 (by simpa using h2)

/-- C6: in every reachable store state, each trial's `trialNumber` is its
1-indexed position in the session's trial list (so numbers are never
reused), a further `startTrial` call returns `count of existing trials +
1`, and within every trial the strokeIds are exactly 0, 1, 2, ... in
order (the per-trial stroke counter is reset to 0 by `startTrial` and
incremented by one per `startStroke`). -/
theorem c6_trial_numbering (ops : List DOp) :
    (∀ (i : ℕ) (tr : Trial), (runOps initStore ops).trials[i]? = some tr →
      tr.trialNumber = i + 1) ∧
    (∀ t : ℚ, ((runOps initStore ops).startTrial t).2 =
      (runOps initStore ops).trials.length + 1) ∧
    (∀ (i : ℕ) (tr : Trial) (j : ℕ) (st : Stroke),
      (runOps initStore ops).trials[i]? = some tr →
      tr.strokes[j]? = some st → st.strokeId = j) :=
  ⟨(inv_reach ops).num, fun _ => rfl, (inv_reach ops).sid⟩

/-- C7: in every reachable store state with no open trial, the calls
`addStrokePoint`, `addGazePoint` and `recordAction` store nothing and
leave the store unchanged, silently; this includes `addStrokePoint` after
a `startStroke` that was itself a no-op (with no open trial a reachable
store has no open stroke either). -/
theorem c7_noop_without_trial (ops : List DOp)
    (h : (runOps initStore ops).currentTrial = none) :
    (∀ x y p t : ℚ, (runOps initStore ops).addStrokePoint x y p t =
      runOps initStore ops) ∧
    (∀ x y t : ℚ, (runOps initStore ops).addGazePoint x y t =
      runOps initStore ops) ∧
    (∀ (ty : String) (t : ℚ), (runOps initStore ops).recordAction ty t =
      runOps initStore ops) ∧
    (∀ (tool color : String) (th t x y p u : ℚ),
      ((runOps initStore ops).startStroke tool color th t).addStrokePoint
        x y p u = runOps initStore ops) ∧
    (∀ s2 : DataStore, s2.currentStroke = none →
      ∀ x y p t : ℚ, s2.addStrokePoint x y p t = s2) := by
  have hcs : (runOps initStore ops).currentStroke = none := (inv_reach ops).nn h
  refine ⟨?_, ?_, ?_, ?_, ?_⟩
  · intro x y p t
    simp [DataStore.addStrokePoint, hcs]
  · intro x y t
    simp [DataStore.addGazePoint, h]
  · intro ty t
    simp [DataStore.recordAction, h]
  · intro tool color th t x y p u
    rw [show (runOps initStore ops).startStroke tool color th t =
        runOps initStore ops from by simp [DataStore.startStroke, h]]
    simp [DataStore.addStrokePoint, hcs]
  · intro s2 h2 x y p t
    simp [DataStore.addStrokePoint, h2]

/-- Witness for C7 at the concrete trace `startTrial; endTrial` (a closed
store with no open trial). -/
theorem c7_noop_without_trial_witness :
    ((runOps initStore [DOp.startTrialOp 0, DOp.endTrialOp 1]).addStrokePoint
       1 2 (1/2) 3 = runOps initStore [DOp.startTrialOp 0, DOp.endTrialOp 1]) ∧
    ((runOps initStore [DOp.startTrialOp 0, DOp.endTrialOp 1]).addGazePoint
       4 5 6 = runOps initStore [DOp.startTrialOp 0, DOp.endTrialOp 1]) ∧
    ((runOps initStore [DOp.startTrialOp 0, DOp.endTrialOp 1]).recordAction
       "undo" 7 = runOps initStore [DOp.startTrialOp 0, DOp.endTrialOp 1]) ∧
    (((runOps initStore [DOp.startTrialOp 0, DOp.endTrialOp 1]).startStroke
       "pen" "#1a1a2e" 4 8).addStrokePoint 9 9 1 10 =
       runOps initStore [DOp.startTrialOp 0, DOp.endTrialOp 1]) ∧
    (initStore.addStrokePoint 1 1 1 1 = initStore) := by
  have h := c7_noop_without_trial [DOp.startTrialOp 0, DOp.endTrialOp 1]
    (by with_unfolding_all rfl)
  exact ⟨h.1 1 2 (1/2) 3, h.2.1 4 5 6, h.2.2.1 "undo" 7,
    h.2.2.2.1 "pen" "#1a1a2e" 4 8 9 9 1 10, h.2.2.2.2 initStore rfl 1 1 1 1⟩

/-! ## Timestamp discipline (C9) -/

theorem mem_of_getElem?_eq_some {α : Type} {l : List α} {i : ℕ} {x : α}
    (h : l[i]? = some x) : x ∈ l := by
  obtain ⟨hlt, rfl⟩ := List.getElem?_eq_some.mp h
  exact List.getElem_mem ..

theorem mem_updAt_cases {α : Type} {x : α} {l : List α} {i : ℕ} {f : α → α}
    (h : x ∈ updAt l i f) : x ∈ l ∨ ∃ y ∈ l, x = f y := by
  rcases mem_updAt h with h | ⟨y, hy, rfl⟩
  · exact Or.inl h
  · exact Or.inr ⟨y, mem_of_getElem?_eq_some hy, rfl⟩

theorem forall_mem_updAt {α : Type} {P : α → Prop} {l : List α} {i : ℕ}
    {f : α → α} (h : ∀ x ∈ l, P x) (hf : ∀ x ∈ l, P x → P (f x)) :
    ∀ x ∈ updAt l i f, P x := by
  intro x hx
  rcases mem_updAt_cases hx with hx | ⟨y, hy, rfl⟩
  · exact h x hx
  · exact hf y hy (h y hy)

theorem forall_mem_append_singleton {α : Type} {P : α → Prop} {l : List α}
    {e : α} (h : ∀ x ∈ l, P x) (he : P e) : ∀ x ∈ l ++ [e], P x := by
  intro x hx
  rcases List.mem_append.mp hx with hx | hx
  · exact h x hx
  · simp only [List.mem_singleton] at hx
    subst hx
    exact he

/-- Time discipline of one stroke record relative to a clock bound `c`:
non-negative start/end stamps, all point times non-negative and at most
`c`, and point times non-decreasing in recording order. -/
def StTimes (c : ℚ) (st : Stroke) : Prop :=
  0 ≤ st.startTime ∧ (∀ e ∈ st.endTime, 0 ≤ e) ∧
  (∀ p ∈ st.points, 0 ≤ p.time ∧ p.time ≤ c) ∧
  List.Chain' (fun p q : StrokePoint => p.time ≤ q.time) st.points

/-- Time discipline of one trial record relative to a clock bound `c`. -/
def TrTimes (c : ℚ) (tr : Trial) : Prop :=
  0 ≤ tr.startTime ∧ (∀ e ∈ tr.endTime, 0 ≤ e) ∧
  (∀ a ∈ tr.actions, 0 ≤ a.time) ∧ (∀ g ∈ tr.gazeData, 0 ≤ g.time) ∧
  ∀ st ∈ tr.strokes, StTimes c st

/-- Time discipline of the whole store relative to a clock bound `c`. -/
def StoreTimes (c : ℚ) (s : DataStore) : Prop := ∀ tr ∈ s.trials, TrTimes c tr

/-- The part of the claim that survives without a bound: within every
recorded stroke the point times are non-decreasing. -/
def StorePointsSorted (s : DataStore) : Prop :=
  ∀ tr ∈ s.trials, ∀ st ∈ tr.strokes,
    List.Chain' (fun p q : StrokePoint => p.time ≤ q.time) st.points

/-- Every timestamp recorded anywhere in the store is non-negative. -/
def StoreNonneg (s : DataStore) : Prop :=
  ∀ tr ∈ s.trials, 0 ≤ tr.startTime ∧ (∀ e ∈ tr.endTime, 0 ≤ e) ∧
    (∀ a ∈ tr.actions, 0 ≤ a.time) ∧ (∀ g ∈ tr.gazeData, 0 ≤ g.time) ∧
    ∀ st ∈ tr.strokes, 0 ≤ st.startTime ∧ (∀ e ∈ st.endTime, 0 ≤ e) ∧
      ∀ p ∈ st.points, 0 ≤ p.time

theorem storeTimes_proj {c : ℚ} {s : DataStore} (h : StoreTimes c s) :
    StorePointsSorted s ∧ StoreNonneg s := by
  constructor
  · intro tr htr st hst
    exact ((h tr htr).2.2.2.2 st hst).2.2.2
  · intro tr htr
    obtain ⟨h1, h2, h3, h4, h5⟩ := h tr htr
    refine ⟨h1, h2, h3, h4, ?_⟩
    intro st hst
    obtain ⟨g1, g2, g3, _⟩ := h5 st hst
    exact ⟨g1, g2, fun p hp => (g3 p hp).1⟩

theorem stTimes_mono {c d : ℚ} (hcd : c ≤ d) {st : Stroke}
    (h : StTimes c st) : StTimes d st :=
  ⟨h.1, h.2.1, fun p hp => ⟨(h.2.2.1 p hp).1, le_trans (h.2.2.1 p hp).2 hcd⟩,
   h.2.2.2⟩

theorem trTimes_mono {c d : ℚ} (hcd : c ≤ d) {tr : Trial}
    (h : TrTimes c tr) : TrTimes d tr :=
  ⟨h.1, h.2.1, h.2.2.1, h.2.2.2.1,
   fun st hst => stTimes_mono hcd (h.2.2.2.2 st hst)⟩

theorem storeTimes_mono {c d : ℚ} (hcd : c ≤ d) {s : DataStore}
    (h : StoreTimes c s) : StoreTimes d s :=
  fun tr htr => trTimes_mono hcd (h tr htr)

theorem stTimes_stamp {c t : ℚ} (h0 : 0 ≤ t) {st : Stroke}
    (h : StTimes c st) : StTimes c { st with endTime := some t } := by
  refine ⟨h.1, ?_, h.2.2.1, h.2.2.2⟩
  intro e he
  simp only [Option.mem_def, Option.some_inj] at he
  subst he
  exact h0

theorem stTimes_addPoint {t : ℚ} (h0 : 0 ≤ t) {st : Stroke}
    (h : StTimes t st) (pt : StrokePoint) (hpt : pt.time = t) :
    StTimes t { st with points := st.points ++ [pt] } := by
  obtain ⟨h1, h2, h3, h4⟩ := h
  refine ⟨h1, h2, ?_, ?_⟩
  · intro p hp
    rcases List.mem_append.mp hp with hp | hp
    · exact h3 p hp
    · simp only [List.mem_singleton] at hp
      subst hp
      rw [hpt]
      exact ⟨h0, le_refl t⟩
  · rw [List.chain'_append]
    refine ⟨h4, List.chain'_singleton pt, ?_⟩
    intro x hx y hy
    simp only [List.head?_cons, Option.mem_def, Option.some_inj] at hy
    subst hy
    rw [hpt]
    exact (h3 x (List.mem_of_mem_getLast? hx)).2

theorem trTimes_stampTrial {c t : ℚ} (h0 : 0 ≤ t) {tr : Trial}
    (h : TrTimes c tr) : TrTimes c { tr with endTime := some t } := by
  refine ⟨h.1, ?_, h.2.2.1, h.2.2.2.1, h.2.2.2.2⟩
  intro e he
  simp only [Option.mem_def, Option.some_inj] at he
  subst he
  exact h0

theorem storeTimes_runOp {s : DataStore} {c : ℚ} (op : DOp)
    (h : StoreTimes c s) (hc : c ≤ op.time) (h0 : 0 ≤ op.time) :
    StoreTimes op.time (runOp s op) := by
  have hs : StoreTimes op.time s := storeTimes_mono hc h
  cases op with
  | startTrialOp t =>
    exact forall_mem_append_singleton hs
      ⟨h0, by simp, by simp, by simp, by simp⟩
  | endTrialOp t =>
    show StoreTimes t (s.endTrial t)
    cases hct : s.currentTrial with
    | none =>
      rw [show s.endTrial t = s from by simp [DataStore.endTrial, hct]]
      exact hs
    | some i =>
      cases hcs : s.currentStroke with
      | none =>
        rw [endTrial_eq_noStroke s t i hct hcs]
        exact forall_mem_updAt hs fun tr _ htr => trTimes_stampTrial h0 htr
      | some ij =>
        obtain ⟨i2, j2⟩ := ij
        rw [endTrial_eq_stroke s t i i2 j2 hct hcs]
        refine forall_mem_updAt
          (forall_mem_updAt hs fun tr _ htr => trTimes_stampTrial h0 htr)
          fun tr _ htr => ?_
        refine ⟨htr.1, htr.2.1, htr.2.2.1, htr.2.2.2.1, ?_⟩
        exact forall_mem_updAt htr.2.2.2.2 fun st _ hst => stTimes_stamp h0 hst
  | startStrokeOp tool color th t =>
    show StoreTimes t (s.startStroke tool color th t)
    cases hct : s.currentTrial with
    | none =>
      rw [show s.startStroke tool color th t = s from by
        simp [DataStore.startStroke, hct]]
      exact hs
    | some i =>
      cases htri : s.trials[i]? with
      | none =>
        rw [show s.startStroke tool color th t = s from by
          simp [DataStore.startStroke, hct, htri]]
        exact hs
      | some tr =>
        rw [startStroke_eq s tool color th t i tr hct htri]
        refine forall_mem_updAt hs fun tr2 _ htr2 => ?_
        refine ⟨htr2.1, htr2.2.1, htr2.2.2.1, htr2.2.2.2.1, ?_⟩
        exact forall_mem_append_singleton htr2.2.2.2.2
          ⟨h0, by simp, by simp, List.chain'_nil⟩
  | addStrokePointOp x y p t =>
    show StoreTimes t (s.addStrokePoint x y p t)
    cases hcs : s.currentStroke with
    | none =>
      rw [show s.addStrokePoint x y p t = s from by
        simp [DataStore.addStrokePoint, hcs]]
      exact hs
    | some ij =>
      obtain ⟨i, j⟩ := ij
      rw [addStrokePoint_eq s x y p t i j hcs]
      refine forall_mem_updAt hs fun tr _ htr => ?_
      refine ⟨htr.1, htr.2.1, htr.2.2.1, htr.2.2.2.1, ?_⟩
      exact forall_mem_updAt htr.2.2.2.2
        fun st _ hst => stTimes_addPoint h0 hst _ rfl
  | endStrokeOp t =>
    show StoreTimes t (s.endStroke t)
    cases hcs : s.currentStroke with
    | none =>
      rw [show s.endStroke t = s from by simp [DataStore.endStroke, hcs]]
      exact hs
    | some ij =>
      obtain ⟨i, j⟩ := ij
      rw [endStroke_eq s t i j hcs]
      refine forall_mem_updAt hs fun tr _ htr => ?_
      refine ⟨htr.1, htr.2.1, htr.2.2.1, htr.2.2.2.1, ?_⟩
      exact forall_mem_updAt htr.2.2.2.2 fun st _ hst => stTimes_stamp h0 hst
  | recordActionOp ty t =>
    show StoreTimes t (s.recordAction ty t)
    cases hct : s.currentTrial with
    | none =>
      rw [show s.recordAction ty t = s from by
        simp [DataStore.recordAction, hct]]
      exact hs
    | some i =>
      rw [recordAction_eq s ty t i hct]
      refine forall_mem_updAt hs fun tr _ htr => ?_
      refine ⟨htr.1, htr.2.1, ?_, htr.2.2.2.1, htr.2.2.2.2⟩
      refine forall_mem_append_singleton htr.2.2.1 ?_
      exact h0
  | addGazePointOp x y t =>
    show StoreTimes t (s.addGazePoint x y t)
    cases hct : s.currentTrial with
    | none =>
      rw [show s.addGazePoint x y t = s from by
        simp [DataStore.addGazePoint, hct]]
      exact hs
    | some i =>
      rw [addGazePoint_eq s x y t i hct]
      refine forall_mem_updAt hs fun tr _ htr => ?_
      refine ⟨htr.1, htr.2.1, htr.2.2.1, ?_, htr.2.2.2.2⟩
      refine forall_mem_append_singleton htr.2.2.2.1 ?_
      exact h0

theorem storeTimes_runOps (s : DataStore) (ops : List DOp) (c : ℚ)
    (h : StoreTimes c s)
    (hm : List.Chain' (· ≤ ·) (c :: ops.map DOp.time))
    (hn : ∀ op ∈ ops, 0 ≤ op.time) :
    ∃ d, StoreTimes d (runOps s ops) := by
  induction ops generalizing s c with
  | nil => exact ⟨c, h⟩
  | cons op ops ih =>
    have hc : c ≤ op.time := by
      rcases ops with _ | _
      all_goals simpa [List.chain'_cons] using (List.chain'_cons.mp hm).1
    have hm2 : List.Chain' (· ≤ ·) (op.time :: ops.map DOp.time) := by
      simpa using (List.chain'_cons.mp (by simpa using hm)).2
    rw [runOps_cons]
    exact ih (runOp s op) op.time
      (storeTimes_runOp op h hc (hn op (List.mem_cons_self ..)))
      hm2 (fun o ho => hn o (List.mem_cons_of_mem _ ho))

/-- C9: when every operation of a trace draws its timestamp from a single
non-negative, monotonically non-decreasing clock (the `now()` contract),
then in the resulting store every stroke's point times satisfy
`points[i].time ≤ points[i+1].time` for all consecutive `i`, and every
recorded timestamp (trial and stroke start/end stamps, point, action and
gaze times) is non-negative. -/
theorem c9_monotone_times (ops : List DOp)
    (hm : List.Chain' (· ≤ ·) (ops.map DOp.time))
    (hn : ∀ op ∈ ops, 0 ≤ op.time) :
    StorePointsSorted (runOps initStore ops) ∧
    StoreNonneg (runOps initStore ops) := by
  cases ops with
  | nil =>
    constructor
    · intro tr htr
      simp [runOps, initStore] at htr
    · intro tr htr
      simp [runOps, initStore] at htr
  | cons op ops =>
    have h0 : StoreTimes op.time initStore := by
      intro tr htr
      simp [initStore] at htr
    have hmc : List.Chain' (· ≤ ·) (op.time :: (op :: ops).map DOp.time) := by
      simp only [List.map_cons]
      exact List.chain'_cons.mpr ⟨le_refl _, by simpa using hm⟩
    obtain ⟨d, hd⟩ := storeTimes_runOps initStore (op :: ops) op.time h0 hmc hn
    exact storeTimes_proj hd

/-- Witness for C9: a concrete monotone trace recording one two-point
stroke. -/
theorem c9_monotone_times_witness :
    StorePointsSorted (runOps initStore [DOp.startTrialOp 0,
      DOp.startStrokeOp "pen" "#1a1a2e" 4 1, DOp.addStrokePointOp 1 1 (1/2) 2,
      DOp.addStrokePointOp 2 2 (1/2) 3, DOp.endStrokeOp 4,
      DOp.endTrialOp 5]) ∧
    StoreNonneg (runOps initStore [DOp.startTrialOp 0,
      DOp.startStrokeOp "pen" "#1a1a2e" 4 1, DOp.addStrokePointOp 1 1 (1/2) 2,
      DOp.addStrokePointOp 2 2 (1/2) 3, DOp.endStrokeOp 4,
      DOp.endTrialOp 5]) := by
  refine c9_monotone_times _ ?_ ?_
  · norm_num [DOp.time, List.chain'_cons]
  · intro op hop
    fin_cases hop <;> norm_num [DOp.time]

/-! ## Gaze ingestion bounds (C8) -/

theorem round1_mono {a b : ℚ} (h : a ≤ b) : round1 a ≤ round1 b := by
  have hr : round (a * 10) ≤ round (b * 10) := by
    rw [round_eq, round_eq]
    exact Int.floor_le_floor (by linarith)
  unfold round1
  exact (div_le_div_iff_of_pos_right (by norm_num)).mpr (by exact_mod_cast hr)

theorem round1_natCast (n : ℕ) : round1 (n : ℚ) = n := by
  unfold round1
  rw [show ((n : ℚ) * 10) = ((n * 10 : ℕ) : ℚ) by push_cast; ring,
    round_natCast]
  push_cast
  field_simp

theorem round1_zero : round1 0 = 0 := by
  norm_num [round1]

/-- C8: a gaze estimate delivered through `EyeTracker._onGaze` while a
trial is open appends exactly one GazeSample: its coordinates are the raw
estimate clamped to the viewport `[0, W] × [0, H]` and then rounded, so
they lie within the viewport bounds, and it is stamped with the current
clock reading; the stroke and action lists are untouched.  When no trial
is open the call leaves the store unchanged. -/
theorem c8_gaze_clamped (W H : ℕ) (x y t : ℚ) (s : DataStore) (i : ℕ)
    (tr : Trial) (hct : s.currentTrial = some i)
    (htr : s.trials[i]? = some tr) :
    (∃ tr2, (onGaze W H x y s t).trials[i]? = some tr2 ∧
      tr2.strokes = tr.strokes ∧ tr2.actions = tr.actions ∧
      tr2.gazeData = tr.gazeData ++
        [⟨round1 (max 0 (min x W)), round1 (max 0 (min y H)), t⟩]) ∧
    (0 ≤ round1 (max 0 (min x W)) ∧ round1 (max 0 (min x W)) ≤ W) ∧
    (0 ≤ round1 (max 0 (min y H)) ∧ round1 (max 0 (min y H)) ≤ H) ∧
    ∀ s2 : DataStore, s2.currentTrial = none → onGaze W H x y s2 t = s2 := by
  refine ⟨?_, ⟨?_, ?_⟩, ⟨?_, ?_⟩, ?_⟩
  · rw [show onGaze W H x y s t =
        s.addGazePoint (max 0 (min x W)) (max 0 (min y H)) t from rfl,
      addGazePoint_eq s _ _ t i hct]
    exact ⟨{ tr with gazeData := tr.gazeData ++
        [⟨round1 (max 0 (min x W)), round1 (max 0 (min y H)), t⟩] },
      by rw [getElem?_updAt, if_pos rfl, htr]; rfl, rfl, rfl, rfl⟩
  · have := round1_mono (le_max_left 0 (min x W))
    rwa [round1_zero] at this
  · have h1 : max 0 (min x (W : ℚ)) ≤ (W : ℚ) :=
      max_le (by positivity) (min_le_right ..)
    have := round1_mono h1
    rwa [round1_natCast] at this
  · have := round1_mono (le_max_left 0 (min y H))
    rwa [round1_zero] at this
  · have h1 : max 0 (min y (H : ℚ)) ≤ (H : ℚ) :=
      max_le (by positivity) (min_le_right ..)
    have := round1_mono h1
    rwa [round1_natCast] at this
  · intro s2 h2
    simp [onGaze, DataStore.addGazePoint, h2]

/-- Witness for C8 at a concrete open-trial store: the raw estimate
(−3, 70) on a 100 × 50 viewport is stored as (0, 50). -/
theorem c8_gaze_clamped_witness :
    (∃ tr2, (onGaze 100 50 (-3) 70 ⟨[⟨1, 0, none, [], [], []⟩], some 0, none, 0⟩
        2).trials[0]? = some tr2 ∧
      tr2.strokes = (⟨1, 0, none, [], [], []⟩ : Trial).strokes ∧
      tr2.actions = (⟨1, 0, none, [], [], []⟩ : Trial).actions ∧
      tr2.gazeData = (⟨1, 0, none, [], [], []⟩ : Trial).gazeData ++
        [⟨round1 (max 0 (min (-3) (100 : ℕ))), round1 (max 0 (min 70 (50 : ℕ))),
          2⟩]) ∧
    (0 ≤ round1 (max 0 (min (-3) (100 : ℕ))) ∧
      round1 (max 0 (min (-3) (100 : ℕ))) ≤ (100 : ℕ)) ∧
    (0 ≤ round1 (max 0 (min 70 (50 : ℕ))) ∧
      round1 (max 0 (min 70 (50 : ℕ))) ≤ (50 : ℕ)) ∧
    ∀ s2 : DataStore, s2.currentTrial = none →
      onGaze 100 50 (-3) 70 s2 2 = s2 :=
  c8_gaze_clamped 100 50 (-3) 70 2
    ⟨[⟨1, 0, none, [], [], []⟩], some 0, none, 0⟩ 0 ⟨1, 0, none, [], [], []⟩
    rfl rfl

/-- C10: if `startTrial` is called while a stroke is still open, the
`_currentStroke` reference is not cleared: it still points at the same
stroke, which lives in a previous trial (its index differs from the newly
appended trial's index), and a subsequent `addStrokePoint` appends its
point to that stale stroke while the new trial's stroke list stays
empty. -/
theorem c10_stale_stroke (s : DataStore) (i j : ℕ) (tr : Trial) (st : Stroke)
    (t u x y p : ℚ) (hcs : s.currentStroke = some (i, j))
    (htr : s.trials[i]? = some tr) (hst : tr.strokes[j]? = some st) :
    (s.startTrial t).1.currentStroke = some (i, j) ∧
    i ≠ s.trials.length ∧
    (s.startTrial t).1.trials[s.trials.length]? =
      some ⟨s.trials.length + 1, t, none, [], [], []⟩ ∧
    ∃ tr2 st2,
      ((s.startTrial t).1.addStrokePoint x y p u).trials[i]? = some tr2 ∧
      tr2.strokes[j]? = some st2 ∧
      st2.points = st.points ++ [⟨round2 x, round2 y, round3 p, u⟩] ∧
      ((s.startTrial t).1.addStrokePoint x y p u).trials[s.trials.length]? =
        some ⟨s.trials.length + 1, t, none, [], [], []⟩ := by
  have hlt : i < s.trials.length := lt_of_getElem?_eq_some htr
  have hne : i ≠ s.trials.length := Nat.ne_of_lt hlt
  refine ⟨hcs, hne, List.getElem?_concat_length .., ?_⟩
  rw [addStrokePoint_eq ((s.startTrial t).1) x y p u i j hcs]
  refine ⟨{ tr with strokes := updAt tr.strokes j fun st0 =>
      { st0 with points := st0.points ++ [⟨round2 x, round2 y, round3 p, u⟩] } },
    { st with points := st.points ++ [⟨round2 x, round2 y, round3 p, u⟩] },
    ?_, ?_, rfl, ?_⟩
  · rw [getElem?_updAt, if_pos rfl,
      show (s.startTrial t).1.trials[i]? = some tr from
        getElem?_append_some _ htr]
    rfl
  · rw [getElem?_updAt, if_pos rfl, hst]
    rfl
  · rw [getElem?_updAt, if_neg (Ne.symm hne)]
    exact List.getElem?_concat_length ..

/-- A concrete store with one open trial and an open stroke (C10
witness input). -/
def c10Store : DataStore :=
  ⟨[⟨1, 0, none, [⟨0, "pen", "#1a1a2e", 4, 1, none, [⟨2, 3, 1/2, 1⟩]⟩],
     [], []⟩],
   some 0, some (0, 0), 1⟩

/-- Witness for C10 at `c10Store`: `startTrial` (at clock 5) keeps the
stale stroke reference and a point added at clock 6 lands in trial 0, not
in the fresh trial 1. -/
theorem c10_stale_stroke_witness :
    (c10Store.startTrial 5).1.currentStroke = some (0, 0) ∧
    0 ≠ c10Store.trials.length ∧
    (c10Store.startTrial 5).1.trials[c10Store.trials.length]? =
      some ⟨c10Store.trials.length + 1, 5, none, [], [], []⟩ ∧
    ∃ tr2 st2,
      ((c10Store.startTrial 5).1.addStrokePoint 7 8 (1/2) 6).trials[0]? =
        some tr2 ∧
      tr2.strokes[0]? = some st2 ∧
      st2.points = (⟨0, "pen", "#1a1a2e", 4, 1, none,
        [⟨2, 3, 1/2, 1⟩]⟩ : Stroke).points ++
        [⟨round2 7, round2 8, round3 (1/2), 6⟩] ∧
      ((c10Store.startTrial 5).1.addStrokePoint 7 8
          (1/2) 6).trials[c10Store.trials.length]? =
        some ⟨c10Store.trials.length + 1, 5, none, [], [], []⟩ :=
  c10_stale_stroke c10Store 0 0
    ⟨1, 0, none, [⟨0, "pen", "#1a1a2e", 4, 1, none, [⟨2, 3, 1/2, 1⟩]⟩], [], []⟩
    ⟨0, "pen", "#1a1a2e", 4, 1, none, [⟨2, 3, 1/2, 1⟩]⟩
    5 6 7 8 (1/2) rfl rfl rfl

/-- C2: undo with `N ≥ 1` rendered strokes and the open trial holding `N`
committed strokes leaves the rendering history with `N − 1` entries while
the trial's stroke list is unchanged (still all `N` strokes) and an
`undo` action is appended to the trial; the gaze list is untouched. -/
theorem c2_undo_frame (sys : Sys) (t : ℚ) (N i : ℕ) (tr : Trial)
    (hN : sys.eng.strokeHistory.length = N) (hpos : 1 ≤ N)
    (hct : sys.store.currentTrial = some i)
    (htr : sys.store.trials[i]? = some tr)
    (hstrokes : tr.strokes.length = N) :
    (sys.undo t).eng.strokeHistory.length = N - 1 ∧
    ∃ tr2, (sys.undo t).store.trials[i]? = some tr2 ∧
      tr2.strokes = tr.strokes ∧ tr2.strokes.length = N ∧
      tr2.actions = tr.actions ++ [⟨"undo", t⟩] ∧
      tr2.gazeData = tr.gazeData := by
  have hne : ¬ sys.eng.strokeHistory.length = 0 := by omega
  rw [show sys.undo t =
      ⟨{ sys.eng with strokeHistory := sys.eng.strokeHistory.dropLast },
       sys.store.recordAction "undo" t⟩ from by simp [Sys.undo, hne]]
  constructor
  · simp [List.length_dropLast, hN]
  · rw [show (⟨{ sys.eng with
          strokeHistory := sys.eng.strokeHistory.dropLast },
        sys.store.recordAction "undo" t⟩ : Sys).store =
        sys.store.recordAction "undo" t from rfl,
      recordAction_eq _ "undo" t i hct]
    exact ⟨{ tr with actions := tr.actions ++ [⟨"undo", t⟩] },
      by rw [getElem?_updAt, if_pos rfl, htr]; rfl, rfl, hstrokes, rfl, rfl⟩

/-- A concrete system state right after one complete pen stroke inside an
open trial (C2/C3 witness input): the rendering history and the open
trial both hold exactly one stroke. -/
def demoSys : Sys :=
  runEvs initSys [Ev.trialStartEv 0, Ev.pdown ⟨1, 2, some (1/2), true⟩ 1,
    Ev.pup ⟨0, 0, none, true⟩ 2]

/-- The trial record held by `demoSys`. -/
def demoTrial : Trial :=
  ⟨1, 0, none, [⟨0, "pen", "#1a1a2e", 4, 1, some 2, [⟨1, 2, 1/2, 1⟩]⟩],
   [], []⟩

/-- Witness for C2 at `demoSys` with `N = 1`. -/
theorem c2_undo_frame_witness :
    (demoSys.undo 3).eng.strokeHistory.length = 1 - 1 ∧
    ∃ tr2, (demoSys.undo 3).store.trials[0]? = some tr2 ∧
      tr2.strokes = demoTrial.strokes ∧ tr2.strokes.length = 1 ∧
      tr2.actions = demoTrial.actions ++ [⟨"undo", 3⟩] ∧
      tr2.gazeData = demoTrial.gazeData :=
  c2_undo_frame demoSys 3 1 0 demoTrial (by with_unfolding_all rfl)
    (by norm_num) (by with_unfolding_all rfl) (by with_unfolding_all rfl)
    (by with_unfolding_all rfl)

/-- C3: clear empties the rendering history entirely while the open
trial's stroke list is exactly what it was before the call, and a `clear`
action is appended to the trial; the gaze list is untouched. -/
theorem c3_clear_frame (sys : Sys) (t : ℚ) (i : ℕ) (tr : Trial)
    (hct : sys.store.currentTrial = some i)
    (htr : sys.store.trials[i]? = some tr) :
    (sys.clearAll t).eng.strokeHistory = [] ∧
    ∃ tr2, (sys.clearAll t).store.trials[i]? = some tr2 ∧
      tr2.strokes = tr.strokes ∧
      tr2.actions = tr.actions ++ [⟨"clear", t⟩] ∧
      tr2.gazeData = tr.gazeData := by
  constructor
  · rfl
  · rw [show (sys.clearAll t).store = sys.store.recordAction "clear" t
        from rfl,
      recordAction_eq _ "clear" t i hct]
    exact ⟨{ tr with actions := tr.actions ++ [⟨"clear", t⟩] },
      by rw [getElem?_updAt, if_pos rfl, htr]; rfl, rfl, rfl, rfl⟩

/-- Witness for C3 at `demoSys`. -/
theorem c3_clear_frame_witness :
    (demoSys.clearAll 3).eng.strokeHistory = [] ∧
    ∃ tr2, (demoSys.clearAll 3).store.trials[0]? = some tr2 ∧
      tr2.strokes = demoTrial.strokes ∧
      tr2.actions = demoTrial.actions ++ [⟨"clear", 3⟩] ∧
      tr2.gazeData = demoTrial.gazeData :=
  c3_clear_frame demoSys 3 0 demoTrial (by with_unfolding_all rfl)
    (by with_unfolding_all rfl)

/-! ## No zero-point stroke is retained (C4) -/

theorem updAt_updAt {α : Type} (l : List α) (i : ℕ) (f g : α → α) :
    updAt (updAt l i f) i g = updAt l i fun x => g (f x) := by
  induction l generalizing i with
  | nil => rfl
  | cons a l ih => cases i <;> simp [updAt, ih]

/-- Every stroke committed to any trial of the store has at least one
point. -/
def StoreNoEmpty (s : DataStore) : Prop :=
  ∀ tr ∈ s.trials, ∀ st ∈ tr.strokes, st.points ≠ []

theorem storeNoEmpty_startTrial {s : DataStore} (h : StoreNoEmpty s)
    (t : ℚ) : StoreNoEmpty (s.startTrial t).1 := by
  refine forall_mem_append_singleton h ?_
  intro st hst
  simp at hst

theorem storeNoEmpty_addStrokePoint {s : DataStore} (h : StoreNoEmpty s)
    (x y p t : ℚ) : StoreNoEmpty (s.addStrokePoint x y p t) := by
  cases hcs : s.currentStroke with
  | none =>
    rw [show s.addStrokePoint x y p t = s from by
      simp [DataStore.addStrokePoint, hcs]]
    exact h
  | some ij =>
    obtain ⟨i, j⟩ := ij
    rw [addStrokePoint_eq s x y p t i j hcs]
    refine forall_mem_updAt h fun tr _ htr => ?_
    refine forall_mem_updAt htr fun st _ hst => ?_
    simp

theorem storeNoEmpty_endStroke {s : DataStore} (h : StoreNoEmpty s)
    (t : ℚ) : StoreNoEmpty (s.endStroke t) := by
  cases hcs : s.currentStroke with
  | none =>
    rw [show s.endStroke t = s from by simp [DataStore.endStroke, hcs]]
    exact h
  | some ij =>
    obtain ⟨i, j⟩ := ij
    rw [endStroke_eq s t i j hcs]
    refine forall_mem_updAt h fun tr _ htr => ?_
    exact forall_mem_updAt htr fun st _ hst => hst

theorem storeNoEmpty_endTrial {s : DataStore} (h : StoreNoEmpty s)
    (t : ℚ) : StoreNoEmpty (s.endTrial t) := by
  cases hct : s.currentTrial with
  | none =>
    rw [show s.endTrial t = s from by simp [DataStore.endTrial, hct]]
    exact h
  | some i =>
    cases hcs : s.currentStroke with
    | none =>
      rw [endTrial_eq_noStroke s t i hct hcs]
      exact forall_mem_updAt h fun tr _ htr => htr
    | some ij =>
      obtain ⟨i2, j2⟩ := ij
      rw [endTrial_eq_stroke s t i i2 j2 hct hcs]
      refine forall_mem_updAt (forall_mem_updAt h fun tr _ htr => htr)
        fun tr _ htr => ?_
      exact forall_mem_updAt htr fun st _ hst => hst

theorem storeNoEmpty_recordAction {s : DataStore} (h : StoreNoEmpty s)
    (ty : String) (t : ℚ) : StoreNoEmpty (s.recordAction ty t) := by
  cases hct : s.currentTrial with
  | none =>
    rw [show s.recordAction ty t = s from by
      simp [DataStore.recordAction, hct]]
    exact h
  | some i =>
    rw [recordAction_eq s ty t i hct]
    exact forall_mem_updAt h fun tr _ htr => htr

theorem storeNoEmpty_addGazePoint {s : DataStore} (h : StoreNoEmpty s)
    (x y t : ℚ) : StoreNoEmpty (s.addGazePoint x y t) := by
  cases hct : s.currentTrial with
  | none =>
    rw [show s.addGazePoint x y t = s from by
      simp [DataStore.addGazePoint, hct]]
    exact h
  | some i =>
    rw [addGazePoint_eq s x y t i hct]
    exact forall_mem_updAt h fun tr _ htr => htr

/-- The pointer-down handler couples `startStroke` with an immediate
`addStrokePoint`, so the freshly committed stroke already holds one point
at the end of the handler: the pair preserves the no-empty-stroke
invariant even though `startStroke` alone commits an empty stroke. -/
theorem storeNoEmpty_pdown {s : DataStore} (h : StoreNoEmpty s)
    (tool color : String) (th t x y p u : ℚ) :
    StoreNoEmpty ((s.startStroke tool color th t).addStrokePoint x y p u) := by
  cases hct : s.currentTrial with
  | none =>
    rw [show s.startStroke tool color th t = s from by
      simp [DataStore.startStroke, hct]]
    exact storeNoEmpty_addStrokePoint h x y p u
  | some i =>
    cases htri : s.trials[i]? with
    | none =>
      rw [show s.startStroke tool color th t = s from by
        simp [DataStore.startStroke, hct, htri]]
      exact storeNoEmpty_addStrokePoint h x y p u
    | some tr =>
      rw [startStroke_eq s tool color th t i tr hct htri,
        addStrokePoint_eq _ x y p u i tr.strokes.length rfl]
      intro tr2 htr2
      rw [show ({ s with
          trials := updAt s.trials i fun tr2 =>
            { tr2 with strokes := tr2.strokes ++
                [⟨s.strokeCounter, tool, color, th, t, none, []⟩] },
          currentStroke := some (i, tr.strokes.length),
          strokeCounter := s.strokeCounter + 1 } : DataStore).trials =
          updAt s.trials i fun tr2 =>
            { tr2 with strokes := tr2.strokes ++
                [⟨s.strokeCounter, tool, color, th, t, none, []⟩] } from rfl,
        updAt_updAt] at htr2
      rcases mem_updAt htr2 with htr2 | ⟨y2, hy2, rfl⟩
      · exact h tr2 htr2
      · rw [htri] at hy2
        obtain rfl := Option.some_inj.mp hy2
        intro st hst
        change st ∈ updAt
          (tr.strokes ++ [⟨s.strokeCounter, tool, color, th, t, none, []⟩])
          tr.strokes.length
          (fun st0 => { st0 with points := st0.points ++
            [⟨round2 x, round2 y, round3 p, u⟩] }) at hst
        rw [updAt_append_length] at hst
        rcases List.mem_append.mp hst with hst | hst
        · exact h tr (mem_of_getElem?_eq_some htri) st hst
        · simp only [List.mem_singleton] at hst
          subst hst
          simp

/-- No zero-point stroke is retained in either history: every entry of the
DrawingSurface's rendering history and every stroke committed to a trial
of the CaptureStore has at least one point. -/
def NoEmptyStrokes (sys : Sys) : Prop :=
  (∀ hs ∈ sys.eng.strokeHistory, hs.points ≠ []) ∧ StoreNoEmpty sys.store

theorem noEmpty_runEv (sys : Sys) (ev : Ev) (h : NoEmptyStrokes sys) :
    NoEmptyStrokes (runEv sys ev) := by
  obtain ⟨heng, hstore⟩ := h
  cases ev with
  | pdown e t =>
    show NoEmptyStrokes (sys.pointerDown e t)
    unfold Sys.pointerDown
    split
    · exact ⟨heng, hstore⟩
    split
    · exact ⟨heng, hstore⟩
    exact ⟨heng, storeNoEmpty_pdown hstore sys.eng.tool sys.eng.color
      sys.eng.thickness t (getPointerPos e).x (getPointerPos e).y
      (getPointerPos e).pressure t⟩
  | pmove e t =>
    show NoEmptyStrokes (sys.pointerMove e t)
    unfold Sys.pointerMove
    split
    · exact ⟨heng, hstore⟩
    split
    · exact ⟨heng, hstore⟩
    split
    · exact ⟨heng, hstore⟩
    exact ⟨heng, storeNoEmpty_addStrokePoint hstore (getPointerPos e).x
      (getPointerPos e).y (getPointerPos e).pressure t⟩
  | pup e t =>
    show NoEmptyStrokes (sys.pointerUp e t)
    unfold Sys.pointerUp
    split
    · exact ⟨heng, hstore⟩
    refine ⟨?_, storeNoEmpty_endStroke hstore t⟩
    split
    case isTrue hlen =>
      refine forall_mem_append_singleton heng ?_
      intro hpts
      have hnil : sys.eng.currentPoints = [] := hpts
      rw [hnil] at hlen
      simp at hlen
    case isFalse => exact heng
  | undoEv t =>
    show NoEmptyStrokes (sys.undo t)
    unfold Sys.undo
    split
    · exact ⟨heng, hstore⟩
    refine ⟨?_, storeNoEmpty_recordAction hstore "undo" t⟩
    intro hs hmem
    exact heng hs (List.dropLast_subset _ hmem)
  | clearEv t =>
    refine ⟨?_, storeNoEmpty_recordAction hstore "clear" t⟩
    intro hs hmem
    exact absurd hmem (List.not_mem_nil hs)
  | trialStartEv t =>
    refine ⟨?_, storeNoEmpty_startTrial hstore t⟩
    intro hs hmem
    exact absurd hmem (List.not_mem_nil hs)
  | trialEndEv t =>
    exact ⟨heng, storeNoEmpty_endTrial hstore t⟩
  | gazeEv W H x y t =>
    exact ⟨heng, storeNoEmpty_addGazePoint hstore (max 0 (min x W))
      (max 0 (min y H)) t⟩
  | setToolEv tool => exact ⟨heng, hstore⟩
  | setColorEv c => exact ⟨heng, hstore⟩
  | setThicknessEv th => exact ⟨heng, hstore⟩

theorem noEmpty_runEvs (sys : Sys) (evs : List Ev)
    (h : NoEmptyStrokes sys) : NoEmptyStrokes (runEvs sys evs) := by
  induction evs generalizing sys with
  | nil => exact h
  | cons ev evs ih => exact ih _ (noEmpty_runEv sys ev h)

/-- C4: for every sequence of system events (pointer events, undo, clear,
trial start/end, gaze delivery, tool changes — the operations app.js can
trigger), no stroke with zero points is ever retained in any history used
for rendering or export: every rendering-history entry and every stroke
committed to a CaptureStore trial has at least one point.  (Pointer-down
commits the stroke together with its first point within one atomic
handler, and pointer-up discards an empty local buffer instead of
committing it.) -/
theorem c4_no_empty_strokes (evs : List Ev) :
    NoEmptyStrokes (runEvs initSys evs) := by
  refine noEmpty_runEvs initSys evs ⟨?_, ?_⟩
  · intro hs hmem
    exact absurd hmem (List.not_mem_nil hs)
  · intro tr htr
    exact absurd htr (List.not_mem_nil tr)

/-! ## Primary-pointer filtering (C5, corrected) -/

/-- C5 counterexample: the claim says a non-primary pointer-up "does not
end or commit the stroke being captured by the primary pointer", but
`_onPointerUp` never tests `isPrimary`.  Concretely: after a trial starts
and a primary pointer-down begins a stroke (`isDrawing = true`), a
pointer-up event with `isPrimary = false` flips `isDrawing` to `false`,
commits the buffered stroke to the rendering history, and finalizes the
store's stroke (`endStroke` stamps `endTime = 2` and clears the open
stroke) — exactly what the claim asserts cannot happen. -/
theorem c5_counterexample :
    (runEvs initSys [Ev.trialStartEv 0,
        Ev.pdown ⟨1, 2, some (1/2), true⟩ 1]).eng.isDrawing = true ∧
    (runEvs initSys [Ev.trialStartEv 0, Ev.pdown ⟨1, 2, some (1/2), true⟩ 1,
        Ev.pup ⟨0, 0, none, false⟩ 2]).eng.isDrawing = false ∧
    (runEvs initSys [Ev.trialStartEv 0, Ev.pdown ⟨1, 2, some (1/2), true⟩ 1,
        Ev.pup ⟨0, 0, none, false⟩ 2]).eng.strokeHistory.length = 1 ∧
    (runEvs initSys [Ev.trialStartEv 0, Ev.pdown ⟨1, 2, some (1/2), true⟩ 1,
        Ev.pup ⟨0, 0, none, false⟩ 2]).store.currentStroke = none ∧
    (runEvs initSys [Ev.trialStartEv 0, Ev.pdown ⟨1, 2, some (1/2), true⟩ 1,
        Ev.pup ⟨0, 0, none, false⟩ 2]).store.trials =
      [⟨1, 0, none, [⟨0, "pen", "#1a1a2e", 4, 1, some 2, [⟨1, 2, 1/2, 1⟩]⟩],
        [], []⟩] := by
  refine ⟨?_, ?_, ?_, ?_, ?_⟩ <;> with_unfolding_all rfl

/-- C5 as amended: non-primary pointers are ignored by pointer-down and
pointer-move (neither the engine nor the store changes), but the
pointer-up/cancel/leave handler inspects no field of the event at all —
its effect is identical for every event, primary or not, so any pointer's
up/cancel/leave while capturing ends and commits the stroke. -/
theorem c5_primary_filter (sys : Sys) (e f : PEvent) (t : ℚ)
    (h : e.isPrimary = false) :
    sys.pointerDown e t = sys ∧ sys.pointerMove e t = sys ∧
    sys.pointerUp e t = sys.pointerUp f t := by
  refine ⟨?_, ?_, rfl⟩
  · simp [Sys.pointerDown, h]
  · simp [Sys.pointerMove, h]

/-- Witness for the amended C5 at concrete events. -/
theorem c5_primary_filter_witness :
    initSys.pointerDown ⟨3, 4, none, false⟩ 1 = initSys ∧
    initSys.pointerMove ⟨3, 4, none, false⟩ 1 = initSys ∧
    initSys.pointerUp ⟨3, 4, none, false⟩ 1 =
      initSys.pointerUp ⟨5, 6, some 1, true⟩ 1 :=
  c5_primary_filter initSys ⟨3, 4, none, false⟩ ⟨5, 6, some 1, true⟩ 1 rfl
